import Mathlib

/-!
Shallow embedding of the pyABC population-sampling engine:
the `Sample` accumulator (`pyabc/sampler/base.py`), the multicore
worker-pool backend (`pyabc/sampler/multicore.py`), and the remote
batched job-queue scheduler (`pyabc/sampler/eps_mixin.py`).

Summary statistics are abstracted by a type parameter `α`, and candidate
parameters (Theta) by a type parameter `θ`.
-/

namespace PyABC

/-- One evaluated parameter point: the acceptance flag plus its summary
statistics (`pyabc.population.Particle`, consumed via `particle.accepted`
and `particle.sum_stats`). -/
structure Particle (α : Type) where
  accepted : Bool
  sumStats : α
deriving DecidableEq

/-- `Sample` from `base.py`: the `record_all_sum_stats` flag and the
internal `_particles` list. -/
structure Sample (α : Type) where
  recordAllSumStats : Bool
  particles : List (Particle α)
deriving DecidableEq

namespace Sample

/-- `Sample.__init__(record_all_sum_stats)`: empty particle list. -/
def init (recordAllSumStats : Bool) : Sample α :=
  { recordAllSumStats := recordAllSumStats, particles := [] }

/-- `Sample.all_sum_stats`: `[p.sum_stats for p in self._particles]`. -/
def allSumStats (s : Sample α) : List α :=
  s.particles.map (fun p => p.sumStats)

/-- `Sample._accepted_particles`: the particles with `accepted` set. -/
def acceptedParticles (s : Sample α) : List (Particle α) :=
  s.particles.filter (fun p => p.accepted)

/-- `Sample.n_accepted`: length of `_accepted_particles`. -/
def nAccepted (s : Sample α) : Nat :=
  s.acceptedParticles.length

/-- `Sample.append(particle)`: append to `_particles` iff
`particle.accepted or self.record_all_sum_stats`. -/
def append (s : Sample α) (p : Particle α) : Sample α :=
  if p.accepted || s.recordAllSumStats then
    { s with particles := s.particles ++ [p] }
  else
    s

/-- `Sample.__add__(other)`: a new Sample carrying the left operand's
`record_all_sum_stats` flag and the concatenation
`self._particles + other._particles`. -/
def add (s other : Sample α) : Sample α :=
  { recordAllSumStats := s.recordAllSumStats,
    particles := s.particles ++ other.particles }

instance : Add (Sample α) := ⟨Sample.add⟩

theorem add_def (s other : Sample α) : s + other = s.add other := rfl

theorem nAccepted_append (s : Sample α) (p : Particle α) :
    (s.append p).nAccepted = s.nAccepted + (if p.accepted then 1 else 0) := by
  unfold append nAccepted acceptedParticles
  by_cases hp : p.accepted <;> by_cases hr : s.recordAllSumStats <;>
    simp [hp, hr, List.filter_append]

theorem nAccepted_add (s t : Sample α) :
    (s.add t).nAccepted = s.nAccepted + t.nAccepted := by
  unfold add nAccepted acceptedParticles
  simp [List.filter_append]

theorem nAccepted_foldl_add (l : List (Sample α)) (s : Sample α) :
    (l.foldl Sample.add s).nAccepted =
      s.nAccepted + (l.map Sample.nAccepted).sum := by
  induction l generalizing s with
  | nil => simp
  | cons x xs ih => simp [List.foldl_cons, ih, nAccepted_add]; omega

end Sample

/-! ### Multicore backend (`pyabc/sampler/multicore.py`) -/

/-- `feed(feed_q, n_jobs, n_proc)`: put `1` on the queue once per job,
then put the `SENTINEL` (`None`) once per worker process.  The queue is
modelled as the list of values put, in order; a work token is `some 1`
and the sentinel is `none`. -/
def feed (nJobs nProc : Nat) : List (Option Nat) :=
  let q := (List.range nJobs).foldl (fun q _ => q ++ [some 1]) []
  (List.range nProc).foldl (fun q _ => q ++ [none]) q

/-- The structural plan of one `MulticoreParticleParallelSampler.
sample_until_n_accepted` round: the spawned worker processes
(`[Process(...) for _ in range(n_procs)]` with `n_procs = min(n, self.n_procs)`),
the content of the feed queue, and the coordinator's blocking receives
(`for _ in range(sampler_options.n)`), each modelled by a unit token. -/
structure MulticoreRoundPlan where
  workerProcs : List Unit
  feedQueue : List (Option Nat)
  collectedReceives : List Unit
deriving DecidableEq

/-- The plan of a multicore round with target `n` and configured worker
count `w` (`self.n_procs`). -/
def multicorePlan (n w : Nat) : MulticoreRoundPlan :=
  let nProcs := min n w
  { workerProcs := (List.range nProcs).map (fun _ => ()),
    feedQueue := feed n nProcs,
    collectedReceives := (List.range n).map (fun _ => ()) }

/-- Modelled from the spec: `SingleCoreSampler.sample_until_n_accepted`
(`singlecore.py` is not under `src/`; only its caller `work` in
`multicore.py` is).  Per the spec it is the trivial in-process baseline
sampler: repeatedly draw and evaluate candidates until `need` particles
have been accepted, appending every evaluated particle to the Sample
(subject to its record flag) and counting every evaluation.  The stream
of evaluated particles (draw composed with evaluate) is `stream`, indexed
by the evaluation counter; `fuel` bounds the number of iterations so the
possibly nonterminating loop is total in the model. -/
def singleCoreGo (stream : Nat → Particle α) :
    Nat → Nat → Sample α → Nat → Option (Sample α × Nat)
  | _, 0, s, c => some (s, c)
  | 0, _ + 1, _, _ => none
  | fuel + 1, need + 1, s, c =>
    let p := stream c
    singleCoreGo stream fuel (if p.accepted then need else need + 1)
      (s.append p) (c + 1)

/-- Modelled from the spec: one `SingleCoreSampler` round producing a
Sample with `need` accepted particles and its `nr_evaluations_`. -/
def singleCoreRun (recordFlag : Bool) (stream : Nat → Particle α)
    (fuel need : Nat) : Option (Sample α × Nat) :=
  singleCoreGo stream fuel need (Sample.init recordFlag) 0

/-- A `(res, nr_evaluations_)` pair that a pool worker (`work` in
`multicore.py`) can put on the result queue: the outcome of a successful
baseline single-evaluation round with `n = 1`. -/
def IsWorkerResult (recordFlag : Bool) (r : Sample α × Nat) : Prop :=
  ∃ stream fuel, singleCoreRun recordFlag stream fuel 1 = some r

/-- Like `IsWorkerResult`, with an always-accepting evaluation function. -/
def IsAlwaysAcceptWorkerResult (recordFlag : Bool) (r : Sample α × Nat) : Prop :=
  ∃ stream fuel, (∀ i, (stream i).accepted = true) ∧ 1 ≤ fuel ∧
    singleCoreRun recordFlag stream fuel 1 = some r

/-- The coordinator's assembly in `MulticoreParticleParallelSampler.
sample_until_n_accepted`: `nr_evaluations_ = sum(evaluations)` and
`sample = Sample(...); for result in results: sample += result`. -/
def multicoreAssemble (recordFlag : Bool) (results : List (Sample α × Nat)) :
    Sample α × Nat :=
  ((results.map Prod.fst).foldl Sample.add (Sample.init recordFlag),
   (results.map Prod.snd).sum)

theorem singleCoreGo_spec (stream : Nat → Particle α) :
    ∀ (fuel need : Nat) (s : Sample α) (c : Nat) (s' : Sample α) (c' : Nat),
      singleCoreGo stream fuel need s c = some (s', c') →
      s'.nAccepted = s.nAccepted + need ∧ c + need ≤ c' := by
  intro fuel
  induction fuel with
  | zero =>
    intro need s c s' c' h
    match need with
    | 0 => simp [singleCoreGo] at h; simp [h.1, h.2]
    | _ + 1 => simp [singleCoreGo] at h
  | succ f ih =>
    intro need s c s' c' h
    match need with
    | 0 => simp [singleCoreGo] at h; simp [h.1, h.2]
    | need + 1 =>
      simp only [singleCoreGo] at h
      have hrec := ih _ _ _ _ _ h
      by_cases hp : (stream c).accepted <;>
        simp [hp, Sample.nAccepted_append] at hrec <;> omega

theorem singleCoreGo_alwaysAccept (stream : Nat → Particle α)
    (hacc : ∀ i, (stream i).accepted = true) :
    ∀ (fuel need : Nat) (s : Sample α) (c : Nat), need ≤ fuel →
      ∃ s', singleCoreGo stream fuel need s c = some (s', c + need) := by
  intro fuel
  induction fuel with
  | zero =>
    intro need s c hle
    interval_cases need
    exact ⟨s, rfl⟩
  | succ f ih =>
    intro need s c hle
    match need with
    | 0 => exact ⟨s, rfl⟩
    | need + 1 =>
      simp only [singleCoreGo, hacc c, if_true]
      obtain ⟨s', hs'⟩ := ih need (s.append (stream c)) (c + 1) (by omega)
      exact ⟨s', by rw [hs']; congr 1; congr 1; omega⟩

/-! ### Remote batched backend (`pyabc/sampler/eps_mixin.py`) -/

/-- A pickled payload (`cloudpickle.dumps`): the serialized form of a
value that `pickle.loads` recovers exactly (the round-trip guarantee for
picklable objects). -/
structure Pickled (β : Type) where
  payload : β

/-- `pickle.dumps`. -/
def pickleDumps (x : β) : Pickled β := ⟨x⟩

/-- `pickle.loads`. -/
def pickleLoads (p : Pickled β) : β := p.payload

/-- One `(eval_result, eval_accept, job_id)` triple as produced by the
submit functions and consumed by the gather loop. -/
structure RTriple (α : Type) where
  particle : Particle α
  accepted : Bool
  jobId : Nat
deriving DecidableEq

/-- `EPSMixin.full_submit_function_pickle(param, job_id)`: unpickle the
pre-serialized evaluation function, then evaluate `batchsize` parameters,
pairing each result with its acceptance flag and job id.  The indexed
batch arguments `param[j]` and `job_id[j]` are modelled as functions of
the index. -/
def fullSubmitFunctionPickle {θ α : Type} (batchsize : Nat)
    (simulateAcceptOne : Pickled (θ → Particle α))
    (param : Nat → θ) (jobId : Nat → Nat) : List (RTriple α) :=
  let simulateOne := pickleLoads simulateAcceptOne
  (List.range batchsize).map fun j =>
    let evalResult := simulateOne (param j)
    { particle := evalResult, accepted := evalResult.accepted,
      jobId := jobId j }

/-- The closure-capturing `full_submit_function` defined inside
`sample_until_n_accepted` when `default_pickle` is false: identical loop,
but calling `sampler_options.simul_eval_one` captured from the enclosing
scope. -/
def fullSubmitFunctionClosure {θ α : Type} (batchsize : Nat)
    (simulEvalOne : θ → Particle α)
    (param : Nat → θ) (jobId : Nat → Nat) : List (RTriple α) :=
  (List.range batchsize).map fun j =>
    let evalResult := simulEvalOne (param j)
    { particle := evalResult, accepted := evalResult.accepted,
      jobId := jobId j }

/-- The per-round configuration of the remote batched backend: the
sampler options (`n`, `sample_one`, `simul_eval_one`, `sample_options`)
plus the mixin's own attributes (`batchsize`, `client_max_jobs`,
`client_cores()`).  `sampleOne` is indexed by the draw counter, which in
the code coincides with the issued job id. -/
structure EpsConfig (θ α : Type) where
  n : Nat
  batchsize : Nat
  clientMaxJobs : Nat
  clientCores : Nat
  sampleOne : Nat → θ
  simulEvalOne : θ → Particle α
  sampleOptions : Bool

/-- The particle evaluated for job id `k`:
`simul_eval_one(sample_one())` for the `k`-th draw. -/
def particleOf (cfg : EpsConfig θ α) (k : Nat) : Particle α :=
  cfg.simulEvalOne (cfg.sampleOne k)

/-- The result triple a submit function produces for job id `k`. -/
def mkTriple (cfg : EpsConfig θ α) (k : Nat) : RTriple α :=
  { particle := particleOf cfg k, accepted := (particleOf cfg k).accepted,
    jobId := k }

/-- The `result()` of the batch submitted with first job id `firstId`:
triples for job ids `firstId, …, firstId + batchsize - 1`, read back by
`for i in range(self.batchsize)`. -/
def jobTriples (cfg : EpsConfig θ α) (firstId : Nat) : List (RTriple α) :=
  (List.range cfg.batchsize).map (fun i => mkTriple cfg (firstId + i))

/-- `SortedListWithKey.add`: insert keeping the list sorted by `key`. -/
def insertSortedBy (key : β → Nat) (x : β) : List β → List β
  | [] => [x]
  | y :: ys => if key x < key y then x :: y :: ys else y :: insertSortedBy key x ys

/-- The mutable state of `EPSMixin.sample_until_n_accepted`'s main loop.
A running job is identified by the first job id of its batch (handles are
distinct objects and job ids increase strictly).  `unprocessed_results`
and `all_results` are `SortedListWithKey`s keyed by job id. -/
structure SchedState (α : Type) where
  numAcceptedTotal : Nat
  numAcceptedSequential : Nat
  nextJobId : Nat
  runningJobs : List Nat
  unprocessedResults : List (RTriple α)
  allResults : List (Nat × Particle α)
  nextValidIndex : Int
deriving DecidableEq

/-- The state right before the main loop: counters zero, empty buffers,
`next_valid_index = -1`. -/
def initState : SchedState α :=
  { numAcceptedTotal := 0, numAcceptedSequential := 0, nextJobId := 0,
    runningJobs := [], unprocessedResults := [], allResults := [],
    nextValidIndex := -1 }

/-- One pass of `for curJob in running_jobs: if curJob.done(): ...
running_jobs.remove(curJob)`, with Python's list-iterator semantics:
removing the current element shifts the list, so the element immediately
after each removed one is skipped by this pass.  Returns the jobs still
running after the pass and the drained (done) jobs, in visit order. -/
def drainPass (done : Nat → Bool) : List Nat → List Nat × List Nat
  | [] => ([], [])
  | j :: rest =>
    if done j then
      match rest with
      | [] => ([], [j])
      | k :: rest2 =>
        let pr := drainPass done rest2
        (k :: pr.1, j :: pr.2)
    else
      let pr := drainPass done rest
      (j :: pr.1, pr.2)

/-- Step 1 of the loop body: gather finished jobs.  Every triple of every
drained batch is added to `unprocessed_results` (keyed by job id), and
`num_accepted_total` is incremented once per accepted triple. -/
def drainStep (cfg : EpsConfig θ α) (done : Nat → Bool) (st : SchedState α) :
    SchedState α :=
  let pr := drainPass done st.runningJobs
  let triples := (pr.2.map (jobTriples cfg)).flatten
  { st with
    runningJobs := pr.1,
    unprocessedResults :=
      triples.foldl (fun u t => insertSortedBy RTriple.jobId t u)
        st.unprocessedResults,
    numAcceptedTotal :=
      st.numAcceptedTotal + (triples.filter (fun t => t.accepted)).length }

/-- Step 2 of the loop body: `while next_index == next_valid_index + 1`,
pop the minimum buffered triple, move `(job_id, result)` into
`all_results`, bump `num_accepted_sequential` if accepted, and advance
`next_valid_index`.  When the buffer is empty, `next_index` is NaN and
the comparison fails, ending the loop. -/
def consumeLoop :
    List (RTriple α) → List (Nat × Particle α) → Int → Nat →
      List (RTriple α) × List (Nat × Particle α) × Int × Nat
  | [], allRes, nvi, seq => ([], allRes, nvi, seq)
  | t :: rest, allRes, nvi, seq =>
    if (t.jobId : Int) = nvi + 1 then
      consumeLoop rest
        (insertSortedBy Prod.fst (t.jobId, t.particle) allRes)
        (nvi + 1) (if t.accepted then seq + 1 else seq)
    else
      (t :: rest, allRes, nvi, seq)

/-- Step 2 applied to the scheduler state. -/
def consumeStep (st : SchedState α) : SchedState α :=
  let r := consumeLoop st.unprocessedResults st.allResults
    st.nextValidIndex st.numAcceptedSequential
  { st with
    unprocessedResults := r.1, allResults := r.2.1,
    nextValidIndex := r.2.2.1, numAcceptedSequential := r.2.2.2 }

/-- Submitting `k` fresh batches: each draws `batchsize` parameters,
tags them with job ids `next_job_id, …`, and appends the new handle to
`running_jobs`. -/
def submitBatches (cfg : EpsConfig θ α) : Nat → SchedState α → SchedState α
  | 0, st => st
  | k + 1, st =>
    submitBatches cfg k
      { st with
        runningJobs := st.runningJobs ++ [st.nextJobId],
        nextJobId := st.nextJobId + cfg.batchsize }

/-- Steps 4-5 of the loop body, admission control: submit new batches
only if the in-flight count is below both `client_max_jobs` and
`client_cores()` and `num_accepted_total < n`; when admitting, top up to
`min(client_max_jobs, client_cores())` in-flight batches. -/
def admitStep (cfg : EpsConfig θ α) (st : SchedState α) : SchedState α :=
  if st.runningJobs.length < cfg.clientMaxJobs ∧
      st.runningJobs.length < cfg.clientCores ∧
      st.numAcceptedTotal < cfg.n then
    submitBatches cfg
      (min cfg.clientMaxJobs cfg.clientCores - st.runningJobs.length) st
  else st

/-- The main `while True` loop: drain, consume, break once
`num_accepted_sequential >= n`, otherwise admit new batches and repeat.
`sched t k` tells whether the batch with first job id `k` reports
`done()` when polled in iteration `t`; `fuel` bounds the number of
iterations so the possibly nonterminating loop is total in the model. -/
def runLoop (cfg : EpsConfig θ α) (sched : Nat → Nat → Bool) :
    Nat → Nat → SchedState α → Option (SchedState α)
  | 0, _, _ => none
  | fuel + 1, t, st =>
    let st2 := consumeStep (drainStep cfg (sched t) st)
    if cfg.n ≤ st2.numAcceptedSequential then some st2
    else runLoop cfg sched fuel (t + 1) (admitStep cfg st2)

/-- The final assembly after the loop: `while counter_accepted < n`, pop
the minimum of `all_results`, append its particle to the sample, count it
if accepted, and set `nr_evaluations_` to its job id.  `need` is the
number of accepted particles still missing; popping from an exhausted
buffer is the error case. -/
def finalAssembly :
    List (Nat × Particle α) → Nat → Sample α → Nat → Option (Sample α × Nat)
  | _, 0, s, nr => some (s, nr)
  | [], _ + 1, _, _ => none
  | x :: rest, need + 1, s, _ =>
    finalAssembly rest (if x.2.accepted then need else need + 1)
      (s.append x.2) x.1

/-- `EPSMixin.sample_until_n_accepted`: run the main loop from the
initial state, then assemble the returned `Sample` and the final
`nr_evaluations_` from `all_results`. -/
def epsSampleUntilNAccepted (cfg : EpsConfig θ α) (sched : Nat → Nat → Bool)
    (fuel : Nat) : Option (Sample α × Nat) :=
  match runLoop cfg sched fuel 0 initState with
  | none => none
  | some st =>
    finalAssembly st.allResults cfg.n (Sample.init cfg.sampleOptions) 0

/-! ### Lemmas about the scheduler's building blocks -/

theorem mem_insertSortedBy (key : β → Nat) (x a : β) :
    ∀ l : List β, a ∈ insertSortedBy key x l ↔ a = x ∨ a ∈ l := by
  intro l
  induction l with
  | nil => simp [insertSortedBy]
  | cons y ys ih =>
    unfold insertSortedBy
    by_cases h : key x < key y
    · simp [h]
    · simp [h, ih]
      tauto

theorem insertSortedBy_of_forall_lt (key : β → Nat) (x : β) :
    ∀ l : List β, (∀ y ∈ l, key y < key x) →
      insertSortedBy key x l = l ++ [x] := by
  intro l
  induction l with
  | nil => simp [insertSortedBy]
  | cons y ys ih =>
    intro h
    unfold insertSortedBy
    have hy : key y < key x := h y (by simp)
    rw [if_neg (by omega), ih (fun z hz => h z (by simp [hz]))]
    simp

theorem mem_foldl_insertSortedBy (key : β → Nat) :
    ∀ (l : List β) (acc : List β) (a : β),
      a ∈ l.foldl (fun u t => insertSortedBy key t u) acc ↔ a ∈ acc ∨ a ∈ l := by
  intro l
  induction l with
  | nil => simp
  | cons t ts ih =>
    intro acc a
    simp only [List.foldl_cons, ih, mem_insertSortedBy]
    simp
    tauto

theorem drainPass_cons_neg (done : Nat → Bool) (j : Nat) (rest : List Nat)
    (h : ¬ done j = true) :
    drainPass done (j :: rest) =
      (j :: (drainPass done rest).1, (drainPass done rest).2) := by
  rw [drainPass.eq_def]
  simp [h]

theorem drainPass_drained_done (done : Nat → Bool) :
    ∀ l : List Nat, ∀ j ∈ (drainPass done l).2, done j = true := by
  intro l
  induction l using drainPass.induct done with
  | case1 => simp [drainPass]
  | case2 j h => simp [drainPass, h]
  | case3 j h k rest2 ih =>
    intro a ha
    simp only [drainPass, h, if_true, List.mem_cons] at ha
    rcases ha with ha | ha
    · exact ha ▸ h
    · exact ih a ha
  | case4 j rest h ih =>
    intro a ha
    rw [drainPass_cons_neg done j rest h] at ha
    exact ih a ha

theorem drainPass_ne_nil (done : Nat → Bool) :
    ∀ l : List Nat, (∃ j ∈ l, done j = true) → (drainPass done l).2 ≠ [] := by
  intro l
  induction l using drainPass.induct done with
  | case1 => simp
  | case2 j h => simp [drainPass, h]
  | case3 j h k rest2 ih => simp [drainPass, h]
  | case4 j rest h ih =>
    intro hex
    rw [drainPass_cons_neg done j rest h]
    apply ih
    rcases hex with ⟨a, ha, hd⟩
    rcases List.mem_cons.mp ha with ha | ha
    · exact absurd (ha ▸ hd) h
    · exact ⟨a, ha, hd⟩

theorem drainPass_perm (done : Nat → Bool) :
    ∀ l : List Nat, ((drainPass done l).1 ++ (drainPass done l).2).Perm l := by
  intro l
  induction l using drainPass.induct done with
  | case1 => simp [drainPass]
  | case2 j h => simp [drainPass, h]
  | case3 j h k rest2 ih =>
    simp only [drainPass, h, if_true, List.cons_append]
    have h1 : ((drainPass done rest2).1 ++ j :: (drainPass done rest2).2).Perm
        (j :: ((drainPass done rest2).1 ++ (drainPass done rest2).2)) :=
      List.perm_middle
    exact (h1.cons k).trans (((ih.cons j).cons k).trans (List.Perm.swap j k rest2))
  | case4 j rest h ih =>
    rw [drainPass_cons_neg done j rest h]
    simp only [List.cons_append]
    exact ih.cons j

/-! ### The scheduler's loop invariant -/

/-- The well-formedness invariant of the main loop's state:
`all_results` holds exactly the job ids `0 … next_valid_index` in
ascending order, `num_accepted_sequential` counts the accepted results in
`all_results`, every consumed result is the evaluation of its job id's
draw, and every buffered triple is well-formed. -/
def GoodState (cfg : EpsConfig θ α) (st : SchedState α) : Prop :=
  st.allResults.map Prod.fst = List.range ((st.nextValidIndex + 1).toNat) ∧
  -1 ≤ st.nextValidIndex ∧
  st.numAcceptedSequential =
    (st.allResults.filter (fun x => x.2.accepted)).length ∧
  (∀ x ∈ st.allResults, x.2 = particleOf cfg x.1) ∧
  (∀ t ∈ st.unprocessedResults,
    t.particle = particleOf cfg t.jobId ∧ t.accepted = t.particle.accepted)

theorem goodState_initState (cfg : EpsConfig θ α) :
    GoodState cfg (initState (α := α)) := by
  refine ⟨?_, by norm_num [initState], by simp [initState], ?_, ?_⟩ <;>
    simp [initState]

theorem jobTriples_wf (cfg : EpsConfig θ α) (firstId : Nat) :
    ∀ t ∈ jobTriples cfg firstId,
      t.particle = particleOf cfg t.jobId ∧ t.accepted = t.particle.accepted := by
  intro t ht
  simp only [jobTriples, List.mem_map, List.mem_range] at ht
  obtain ⟨i, _, rfl⟩ := ht
  exact ⟨rfl, rfl⟩

theorem goodState_drainStep (cfg : EpsConfig θ α) (done : Nat → Bool)
    (st : SchedState α) (h : GoodState cfg st) :
    GoodState cfg (drainStep cfg done st) := by
  obtain ⟨h1, h2, h3, h4, h5⟩ := h
  refine ⟨h1, h2, h3, h4, ?_⟩
  intro t ht
  simp only [drainStep] at ht
  rw [mem_foldl_insertSortedBy] at ht
  rcases ht with ht | ht
  · exact h5 t ht
  · simp only [List.mem_flatten, List.mem_map] at ht
    obtain ⟨batch, ⟨firstId, _, rfl⟩, htb⟩ := ht
    exact jobTriples_wf cfg firstId t htb

theorem consumeLoop_good (cfg : EpsConfig θ α) :
    ∀ (unp : List (RTriple α)) (allRes : List (Nat × Particle α))
      (nvi : Int) (seq : Nat),
      allRes.map Prod.fst = List.range ((nvi + 1).toNat) →
      -1 ≤ nvi →
      seq = (allRes.filter (fun x => x.2.accepted)).length →
      (∀ x ∈ allRes, x.2 = particleOf cfg x.1) →
      (∀ t ∈ unp, t.particle = particleOf cfg t.jobId ∧
        t.accepted = t.particle.accepted) →
      (consumeLoop unp allRes nvi seq).2.1.map Prod.fst =
          List.range (((consumeLoop unp allRes nvi seq).2.2.1 + 1).toNat) ∧
      -1 ≤ (consumeLoop unp allRes nvi seq).2.2.1 ∧
      (consumeLoop unp allRes nvi seq).2.2.2 =
        ((consumeLoop unp allRes nvi seq).2.1.filter
          (fun x => x.2.accepted)).length ∧
      (∀ x ∈ (consumeLoop unp allRes nvi seq).2.1,
        x.2 = particleOf cfg x.1) ∧
      (∀ t ∈ (consumeLoop unp allRes nvi seq).1,
        t.particle = particleOf cfg t.jobId ∧
        t.accepted = t.particle.accepted) := by
  intro unp
  induction unp with
  | nil =>
    intro allRes nvi seq h1 h2 h3 h4 h5
    exact ⟨h1, h2, h3, h4, by simp [consumeLoop]⟩
  | cons t rest ih =>
    intro allRes nvi seq h1 h2 h3 h4 h5
    by_cases hc : (t.jobId : Int) = nvi + 1
    · simp only [consumeLoop, if_pos hc]
      have hmz : (((nvi + 1).toNat : Nat) : Int) = nvi + 1 :=
        Int.toNat_of_nonneg (by omega)
      have hjm : t.jobId = (nvi + 1).toNat := by exact_mod_cast hc.trans hmz.symm
      have hlt : ∀ y ∈ allRes, y.1 < (nvi + 1).toNat := by
        intro y hy
        have hmem : y.1 ∈ allRes.map Prod.fst := List.mem_map_of_mem _ hy
        rw [h1] at hmem
        exact List.mem_range.mp hmem
      have hins : insertSortedBy Prod.fst (t.jobId, t.particle) allRes =
          allRes ++ [(t.jobId, t.particle)] := by
        apply insertSortedBy_of_forall_lt
        intro y hy
        simpa [hjm] using hlt y hy
      have hwf := h5 t (by simp)
      apply ih
      · rw [hins]
        simp only [List.map_append, List.map_cons, List.map_nil, h1]
        rw [hjm, ← List.range_succ]
        congr 1
        omega
      · omega
      · rw [hins, List.filter_append]
        simp only [List.length_append, ← h3]
        have : (List.filter (fun x => x.2.accepted)
            [(t.jobId, t.particle)]).length =
            if t.accepted then 1 else 0 := by
          rcases hwf with ⟨-, hacc⟩
          by_cases hb : t.accepted <;> simp [← hacc, hb]
        rw [this]
        by_cases hb : t.accepted <;> simp [hb]
      · intro x hx
        rw [hins] at hx
        rcases List.mem_append.mp hx with hx | hx
        · exact h4 x hx
        · simp at hx
          rw [hx]
          exact hwf.1
      · intro u hu
        exact h5 u (by simp [hu])
    · simp only [consumeLoop, if_neg hc]
      exact ⟨h1, h2, h3, h4, h5⟩

theorem submitBatches_fields (cfg : EpsConfig θ α) :
    ∀ (k : Nat) (st : SchedState α),
      (submitBatches cfg k st).allResults = st.allResults ∧
      (submitBatches cfg k st).unprocessedResults = st.unprocessedResults ∧
      (submitBatches cfg k st).nextValidIndex = st.nextValidIndex ∧
      (submitBatches cfg k st).numAcceptedSequential =
        st.numAcceptedSequential ∧
      (submitBatches cfg k st).numAcceptedTotal = st.numAcceptedTotal := by
  intro k
  induction k with
  | zero => intro st; exact ⟨rfl, rfl, rfl, rfl, rfl⟩
  | succ k ih => intro st; simpa [submitBatches] using ih _

theorem goodState_consumeStep (cfg : EpsConfig θ α) (st : SchedState α)
    (h : GoodState cfg st) : GoodState cfg (consumeStep st) := by
  obtain ⟨h1, h2, h3, h4, h5⟩ := h
  have := consumeLoop_good cfg st.unprocessedResults st.allResults
    st.nextValidIndex st.numAcceptedSequential h1 h2 h3 h4 h5
  exact ⟨this.1, this.2.1, this.2.2.1, this.2.2.2.1, this.2.2.2.2⟩

theorem goodState_admitStep (cfg : EpsConfig θ α) (st : SchedState α)
    (h : GoodState cfg st) : GoodState cfg (admitStep cfg st) := by
  unfold admitStep
  split
  · obtain ⟨f1, f2, f3, f4, f5⟩ := submitBatches_fields cfg
      (min cfg.clientMaxJobs cfg.clientCores - st.runningJobs.length) st
    obtain ⟨h1, h2, h3, h4, h5⟩ := h
    exact ⟨by rw [f1, f3]; exact h1, by rw [f3]; exact h2,
      by rw [f4, f1]; exact h3, by rw [f1]; exact h4, by rw [f2]; exact h5⟩
  · exact h

theorem goodState_runLoop (cfg : EpsConfig θ α) (sched : Nat → Nat → Bool) :
    ∀ (fuel t : Nat) (st st' : SchedState α),
      runLoop cfg sched fuel t st = some st' → GoodState cfg st →
      GoodState cfg st' ∧ cfg.n ≤ st'.numAcceptedSequential := by
  intro fuel
  induction fuel with
  | zero => intro t st st' h; simp [runLoop] at h
  | succ f ih =>
    intro t st st' h hg
    have hg2 : GoodState cfg (consumeStep (drainStep cfg (sched t) st)) :=
      goodState_consumeStep cfg _ (goodState_drainStep cfg _ _ hg)
    simp only [runLoop] at h
    split at h
    · cases h
      exact ⟨hg2, by assumption⟩
    · exact ih _ _ _ h (goodState_admitStep cfg _ hg2)

/-! ### Lemmas about the final assembly -/

theorem finalAssembly_of_count :
    ∀ (l : List (Nat × Particle α)) (need : Nat) (s : Sample α) (nr0 : Nat),
      need ≤ (l.filter (fun x => x.2.accepted)).length →
      ∃ s' nr', finalAssembly l need s nr0 = some (s', nr') ∧
        s'.nAccepted = s.nAccepted + need := by
  intro l
  induction l with
  | nil =>
    intro need s nr0 h
    simp only [List.filter_nil, List.length_nil, Nat.le_zero] at h
    subst h
    exact ⟨s, nr0, rfl, by simp⟩
  | cons x rest ih =>
    intro need s nr0 h
    match need with
    | 0 => exact ⟨s, nr0, rfl, by simp⟩
    | need + 1 =>
      by_cases hacc : x.2.accepted
      · have hcount : need ≤ (rest.filter (fun x => x.2.accepted)).length := by
          simp [List.filter_cons, hacc] at h
          omega
        obtain ⟨s', nr', heq, hn⟩ := ih need (s.append x.2) x.1 hcount
        refine ⟨s', nr', ?_, ?_⟩
        · simpa [finalAssembly, hacc] using heq
        · rw [hn, Sample.nAccepted_append]
          simp [hacc]
          omega
      · have hcount : need + 1 ≤
            (rest.filter (fun x => x.2.accepted)).length := by
          simpa [List.filter_cons, hacc] using h
        obtain ⟨s', nr', heq, hn⟩ := ih (need + 1) (s.append x.2) x.1 hcount
        refine ⟨s', nr', ?_, ?_⟩
        · simpa [finalAssembly, hacc] using heq
        · rw [hn, Sample.nAccepted_append]
          simp [hacc]

theorem finalAssembly_range_accepted :
    ∀ (l : List (Nat × Particle α)) (k m need : Nat) (s : Sample α)
      (nr0 : Nat),
      l.map Prod.fst = List.range' k m →
      (∀ x ∈ l, x.2.accepted = true) →
      1 ≤ need → need ≤ m →
      ∃ s', finalAssembly l need s nr0 = some (s', k + need - 1) ∧
        s'.nAccepted = s.nAccepted + need := by
  intro l
  induction l with
  | nil =>
    intro k m need s nr0 h1 h2 h3 h4
    have : m = 0 := by
      by_contra hm
      obtain ⟨m', rfl⟩ := Nat.exists_eq_succ_of_ne_zero hm
      rw [List.range'_succ] at h1
      exact absurd h1 (by simp)
    omega
  | cons x rest ih =>
    intro k m need s nr0 h1 h2 h3 h4
    obtain ⟨m', rfl⟩ : ∃ m', m = m' + 1 := by
      cases m with
      | zero => omega
      | succ m' => exact ⟨m', rfl⟩
    rw [List.range'_succ, List.map_cons, List.cons_eq_cons] at h1
    obtain ⟨hxk, hrest⟩ := h1
    have hacc : x.2.accepted = true := h2 x (by simp)
    obtain ⟨need', rfl⟩ : ∃ need', need = need' + 1 := by
      cases need with
      | zero => omega
      | succ n' => exact ⟨n', rfl⟩
    match need' with
    | 0 =>
      refine ⟨s.append x.2, ?_, ?_⟩
      · simp [finalAssembly, hacc, hxk]
      · rw [Sample.nAccepted_append]
        simp [hacc]
    | need'' + 1 =>
      obtain ⟨s', heq, hn⟩ := ih (k + 1) m' (need'' + 1) (s.append x.2) x.1
        hrest (fun y hy => h2 y (by simp [hy])) (by omega) (by omega)
      refine ⟨s', ?_, ?_⟩
      · have : k + 1 + (need'' + 1) - 1 = k + (need'' + 1 + 1) - 1 := by omega
        rw [this] at heq
        simpa [finalAssembly, hacc] using heq
      · rw [hn, Sample.nAccepted_append]
        simp [hacc]
        omega

theorem finalAssembly_nr_ge :
    ∀ (l : List (Nat × Particle α)) (k m need : Nat) (s s' : Sample α)
      (nr0 nr' : Nat),
      l.map Prod.fst = List.range' k m →
      1 ≤ need →
      finalAssembly l need s nr0 = some (s', nr') →
      k + need - 1 ≤ nr' := by
  intro l
  induction l with
  | nil =>
    intro k m need s s' nr0 nr' h1 h2 h3
    obtain ⟨need', rfl⟩ : ∃ need', need = need' + 1 := by
      cases need with
      | zero => omega
      | succ n' => exact ⟨n', rfl⟩
    simp [finalAssembly] at h3
  | cons x rest ih =>
    intro k m need s s' nr0 nr' h1 h2 h3
    obtain ⟨m', rfl⟩ : ∃ m', m = m' + 1 := by
      cases m with
      | zero => rw [show List.range' k 0 = [] from rfl] at h1; simp at h1
      | succ m' => exact ⟨m', rfl⟩
    rw [List.range'_succ, List.map_cons, List.cons_eq_cons] at h1
    obtain ⟨hxk, hrest⟩ := h1
    obtain ⟨need', rfl⟩ : ∃ need', need = need' + 1 := by
      cases need with
      | zero => omega
      | succ n' => exact ⟨n', rfl⟩
    simp only [finalAssembly] at h3
    by_cases hacc : x.2.accepted
    · rw [if_pos hacc] at h3
      match need' with
      | 0 =>
        simp only [finalAssembly, Option.some_inj] at h3
        have hx1 : x.1 = nr' := congrArg Prod.snd h3
        omega
      | need'' + 1 =>
        have := ih (k + 1) m' (need'' + 1) (s.append x.2) s' x.1 nr' hrest
          (by omega) h3
        omega
    · rw [if_neg hacc] at h3
      have := ih (k + 1) m' (need' + 1) (s.append x.2) s' x.1 nr' hrest
        (by omega) h3
      omega

/-! ### Concrete instances used by witnesses and counterexamples -/

/-- A remote-backend round with `n = 1`, batch size 1, one worker, and an
always-accepting evaluation function. -/
def alwaysAcceptCfg : EpsConfig Unit Unit :=
  { n := 1, batchsize := 1, clientMaxJobs := 1, clientCores := 1,
    sampleOne := fun _ => (), simulEvalOne := fun _ => ⟨true, ()⟩,
    sampleOptions := false }

/-- A remote-backend round with `n = 2` and two concurrent singleton
batches. -/
def reverseCfg : EpsConfig Unit Unit :=
  { n := 2, batchsize := 1, clientMaxJobs := 2, clientCores := 2,
    sampleOne := fun _ => (), simulEvalOne := fun _ => ⟨true, ()⟩,
    sampleOptions := false }

/-- A completion schedule under which the two batches of `reverseCfg`
complete in reverse submission order: job 1 first, then job 0. -/
def reverseSched : Nat → Nat → Bool :=
  fun t k => (t == 1 && k == 1) || (t == 2 && k == 0)

/-- The state in which the main loop of `reverseCfg` under
`reverseSched` exits. -/
def reverseRunState : SchedState Unit :=
  { numAcceptedTotal := 2, numAcceptedSequential := 2, nextJobId := 3,
    runningJobs := [2], unprocessedResults := [],
    allResults := [(0, ⟨true, ()⟩), (1, ⟨true, ()⟩)], nextValidIndex := 1 }

/-- The single-particle Sample an always-accepting pool worker returns. -/
def workerSample : Sample Unit :=
  { recordAllSumStats := false, particles := [⟨true, ()⟩] }

/-- A scheduler state whose buffered result is already accepted:
`num_accepted_total` has reached `n = 1` of `alwaysAcceptCfg`. -/
def admitFullState : SchedState Unit :=
  { numAcceptedTotal := 1, numAcceptedSequential := 0, nextJobId := 1,
    runningJobs := [], unprocessedResults := [⟨⟨true, ()⟩, true, 0⟩],
    allResults := [], nextValidIndex := -1 }

/-- A scheduler state with two finished in-flight batches. -/
def drainDemoState : SchedState Unit :=
  { numAcceptedTotal := 0, numAcceptedSequential := 0, nextJobId := 2,
    runningJobs := [0, 1], unprocessedResults := [], allResults := [],
    nextValidIndex := -1 }

def sampleW : Sample Nat := { recordAllSumStats := true, particles := [] }

def particleW : Particle Nat := { accepted := false, sumStats := 7 }

def sampleA : Sample Nat :=
  { recordAllSumStats := false, particles := [⟨true, 1⟩, ⟨false, 2⟩] }

def sampleB : Sample Nat :=
  { recordAllSumStats := false, particles := [⟨true, 3⟩] }

/-! ### The claims -/

/-- C1: for every `n ≥ 1` and every always-accepting evaluation function,
`sample_until_n_accepted` of each backend (remote batched and multicore
pool) returns a Sample with exactly `n` accepted particles. -/
theorem claim_C1 :
    (∀ (θ α : Type) (cfg : EpsConfig θ α) (sched : Nat → Nat → Bool)
      (fuel : Nat) (s : Sample α) (nr : Nat),
      1 ≤ cfg.n →
      (∀ t, (cfg.simulEvalOne t).accepted = true) →
      epsSampleUntilNAccepted cfg sched fuel = some (s, nr) →
      s.nAccepted = cfg.n) ∧
    (∀ (α : Type) (recordFlag : Bool) (n : Nat)
      (results : List (Sample α × Nat)),
      results.length = n →
      (∀ r ∈ results, IsWorkerResult recordFlag r) →
      (multicoreAssemble recordFlag results).1.nAccepted = n) := by
  constructor
  · intro θ α cfg sched fuel s nr _hn _hacc heq
    unfold epsSampleUntilNAccepted at heq
    cases hrl : runLoop cfg sched fuel 0 initState with
    | none => rw [hrl] at heq; exact absurd heq (by simp)
    | some st =>
      rw [hrl] at heq
      obtain ⟨hg, hseq⟩ :=
        goodState_runLoop cfg sched fuel 0 _ st hrl (goodState_initState cfg)
      obtain ⟨-, -, h3, -, -⟩ := hg
      have hcount : cfg.n ≤
          (st.allResults.filter (fun x => x.2.accepted)).length := h3 ▸ hseq
      obtain ⟨s', nr', heq', hn'⟩ := finalAssembly_of_count st.allResults
        cfg.n (Sample.init cfg.sampleOptions) 0 hcount
      have h2 := heq'.symm.trans heq
      simp only [Option.some_inj, Prod.mk.injEq] at h2
      rw [← h2.1, hn']
      simp [Sample.init, Sample.nAccepted, Sample.acceptedParticles]
  · intro α recordFlag n results hlen hres
    unfold multicoreAssemble
    simp only
    rw [Sample.nAccepted_foldl_add]
    have hinit : (Sample.init (α := α) recordFlag).nAccepted = 0 := by
      simp [Sample.init, Sample.nAccepted, Sample.acceptedParticles]
    have hone : ∀ r ∈ results, r.1.nAccepted = 1 := by
      intro r hr
      obtain ⟨stream, fuel, hrun⟩ := hres r hr
      have := (singleCoreGo_spec stream fuel 1 _ 0 r.1 r.2
        (by simpa [singleCoreRun] using hrun)).1
      simpa [Sample.init, Sample.nAccepted, Sample.acceptedParticles]
        using this
    have hmap : (results.map Prod.fst).map Sample.nAccepted =
        List.replicate n 1 := by
      rw [List.map_map, List.eq_replicate_iff]
      exact ⟨by simp [hlen], by
        intro b hb
        simp only [List.mem_map, Function.comp] at hb
        obtain ⟨r, hr, rfl⟩ := hb
        exact hone r hr⟩
    rw [hinit, hmap, List.sum_replicate]
    simp

/-- C1 witness: the remote backend at `alwaysAcceptCfg` (with every batch
reporting done) and the multicore coordinator over one worker result both
produce exactly `n` accepted particles. -/
theorem claim_C1_witness :
    (∃ s nr, epsSampleUntilNAccepted alwaysAcceptCfg (fun _ _ => true) 3 =
      some (s, nr) ∧ s.nAccepted = alwaysAcceptCfg.n) ∧
    (multicoreAssemble false [(workerSample, 1)]).1.nAccepted = 1 := by
  constructor
  · exact ⟨⟨false, [⟨true, ()⟩]⟩, 0, by decide,
      claim_C1.1 Unit Unit alwaysAcceptCfg (fun _ _ => true) 3 _ 0
        (by decide) (fun t => rfl) (by decide)⟩
  · refine claim_C1.2 Unit false 1 [(workerSample, 1)] rfl ?_
    intro r hr
    rw [List.mem_singleton] at hr
    subst hr
    exact ⟨fun _ => ⟨true, ()⟩, 1, rfl⟩

/-- C2: for every completion order of submitted jobs, the job ids moved
into `all_results` are strictly increasing with no gaps: on loop exit they
are exactly `0 … next_valid_index`. -/
theorem claim_C2 (θ α : Type) (cfg : EpsConfig θ α)
    (sched : Nat → Nat → Bool) (fuel : Nat) (st : SchedState α)
    (h : runLoop cfg sched fuel 0 initState = some st) :
    ∃ m, st.allResults.map Prod.fst = List.range m ∧
      st.nextValidIndex + 1 = (m : Int) ∧
      (st.allResults.map Prod.fst).Pairwise (· < ·) := by
  obtain ⟨⟨h1, h2, -, -, -⟩, -⟩ :=
    goodState_runLoop cfg sched fuel 0 _ st h (goodState_initState cfg)
  refine ⟨(st.nextValidIndex + 1).toNat, h1, ?_, ?_⟩
  · exact (Int.toNat_of_nonneg (by omega)).symm
  · rw [h1]
    exact List.pairwise_lt_range _

/-- C2 witness: jobs 0 and 1 completing in reverse order still leave
`all_results` holding ids `[0, 1]` in ascending order. -/
theorem claim_C2_witness :
    ∃ m, reverseRunState.allResults.map Prod.fst = List.range m ∧
      reverseRunState.nextValidIndex + 1 = (m : Int) ∧
      (reverseRunState.allResults.map Prod.fst).Pairwise (· < ·) :=
  claim_C2 Unit Unit reverseCfg reverseSched 5 reverseRunState (by decide)

theorem length_le_sum_of_one_le :
    ∀ l : List Nat, (∀ x ∈ l, 1 ≤ x) → l.length ≤ l.sum := by
  intro l
  induction l with
  | nil => simp
  | cons x rest ih =>
    intro h
    have hx := h x (by simp)
    have := ih (fun y hy => h y (by simp [hy]))
    simp only [List.length_cons, List.sum_cons]
    omega

theorem eps_allResults_shape (θ α : Type) (cfg : EpsConfig θ α)
    (sched : Nat → Nat → Bool) (fuel : Nat) (st : SchedState α)
    (hrl : runLoop cfg sched fuel 0 initState = some st) :
    ∃ m, st.allResults.map Prod.fst = List.range' 0 m ∧ cfg.n ≤ m ∧
      (∀ t, (cfg.simulEvalOne t).accepted = true →
        True) ∧
      ((∀ t, (cfg.simulEvalOne t).accepted = true) →
        ∀ x ∈ st.allResults, x.2.accepted = true) := by
  obtain ⟨⟨h1, -, h3, h4, -⟩, hseq⟩ :=
    goodState_runLoop cfg sched fuel 0 _ st hrl (goodState_initState cfg)
  refine ⟨(st.nextValidIndex + 1).toNat, by rw [← List.range_eq_range']; exact h1,
    ?_, fun _ _ => trivial, ?_⟩
  · have hlen : st.allResults.length = (st.nextValidIndex + 1).toNat := by
      have := congrArg List.length h1
      simpa using this
    have hfle : (st.allResults.filter (fun x => x.2.accepted)).length ≤
        st.allResults.length := List.length_filter_le _ _
    omega
  · intro hacc x hx
    rw [h4 x hx]
    exact hacc (cfg.sampleOne x.1)

/-- C3 counterexample: the remote batched backend with `n = 1` and an
always-accepting evaluation function returns `nr_evaluations_ = 0` — the
0-based job id of the last consumed result — which is neither `≥ n` nor
equal to `n`. -/
theorem claim_C3_counterexample :
    epsSampleUntilNAccepted alwaysAcceptCfg (fun _ _ => true) 3 =
      some (⟨false, [⟨true, ()⟩]⟩, 0) ∧
    (∀ t, (alwaysAcceptCfg.simulEvalOne t).accepted = true) ∧
    ¬ alwaysAcceptCfg.n ≤ 0 := by
  exact ⟨by decide, fun t => rfl, by decide⟩

/-- C3 (amended): the multicore backend sets `nr_evaluations_ ≥ n`, with
equality under an always-accepting evaluation function; the remote
batched backend sets `nr_evaluations_` to the 0-based job id of the last
consumed result, which is `≥ n - 1` in every round that returns and
exactly `n - 1` when the evaluation function always accepts. -/
theorem claim_C3_amended :
    (∀ (α : Type) (recordFlag : Bool) (n : Nat)
      (results : List (Sample α × Nat)),
      results.length = n →
      (∀ r ∈ results, IsWorkerResult recordFlag r) →
      n ≤ (multicoreAssemble recordFlag results).2) ∧
    (∀ (α : Type) (recordFlag : Bool) (n : Nat)
      (results : List (Sample α × Nat)),
      results.length = n →
      (∀ r ∈ results, IsAlwaysAcceptWorkerResult recordFlag r) →
      (multicoreAssemble recordFlag results).2 = n) ∧
    (∀ (θ α : Type) (cfg : EpsConfig θ α) (sched : Nat → Nat → Bool)
      (fuel : Nat) (s : Sample α) (nr : Nat),
      1 ≤ cfg.n →
      epsSampleUntilNAccepted cfg sched fuel = some (s, nr) →
      cfg.n - 1 ≤ nr) ∧
    (∀ (θ α : Type) (cfg : EpsConfig θ α) (sched : Nat → Nat → Bool)
      (fuel : Nat) (s : Sample α) (nr : Nat),
      1 ≤ cfg.n →
      (∀ t, (cfg.simulEvalOne t).accepted = true) →
      epsSampleUntilNAccepted cfg sched fuel = some (s, nr) →
      nr = cfg.n - 1) := by
  refine ⟨?_, ?_, ?_, ?_⟩
  · intro α recordFlag n results hlen hres
    unfold multicoreAssemble
    simp only
    have hone : ∀ x ∈ results.map Prod.snd, 1 ≤ x := by
      intro x hx
      simp only [List.mem_map] at hx
      obtain ⟨r, hr, rfl⟩ := hx
      obtain ⟨stream, fuel, hrun⟩ := hres r hr
      have := (singleCoreGo_spec stream fuel 1 _ 0 r.1 r.2
        (by simpa [singleCoreRun] using hrun)).2
      omega
    have := length_le_sum_of_one_le (results.map Prod.snd) hone
    simpa [hlen] using this
  · intro α recordFlag n results hlen hres
    unfold multicoreAssemble
    simp only
    have hone : ∀ r ∈ results, r.2 = 1 := by
      intro r hr
      obtain ⟨stream, fuel, hacc, hfuel, hrun⟩ := hres r hr
      obtain ⟨s', hs'⟩ := singleCoreGo_alwaysAccept stream hacc fuel 1
        (Sample.init recordFlag) 0 hfuel
      have hpair : (s', 0 + 1) = r :=
        Option.some_inj.mp (hs'.symm.trans (by simpa [singleCoreRun] using hrun))
      rw [← hpair]
    have hmap : results.map Prod.snd = List.replicate n 1 := by
      rw [List.eq_replicate_iff]
      exact ⟨by simp [hlen], by
        intro b hb
        simp only [List.mem_map] at hb
        obtain ⟨r, hr, rfl⟩ := hb
        exact hone r hr⟩
    rw [hmap, List.sum_replicate]
    simp
  · intro θ α cfg sched fuel s nr hn heq
    unfold epsSampleUntilNAccepted at heq
    cases hrl : runLoop cfg sched fuel 0 initState with
    | none => rw [hrl] at heq; exact absurd heq (by simp)
    | some st =>
      rw [hrl] at heq
      obtain ⟨m, h1, -, -, -⟩ :=
        eps_allResults_shape θ α cfg sched fuel st hrl
      have := finalAssembly_nr_ge st.allResults 0 m cfg.n
        (Sample.init cfg.sampleOptions) s 0 nr h1 hn heq
      omega
  · intro θ α cfg sched fuel s nr hn hacc heq
    unfold epsSampleUntilNAccepted at heq
    cases hrl : runLoop cfg sched fuel 0 initState with
    | none => rw [hrl] at heq; exact absurd heq (by simp)
    | some st =>
      rw [hrl] at heq
      obtain ⟨m, h1, hm, -, hall⟩ :=
        eps_allResults_shape θ α cfg sched fuel st hrl
      obtain ⟨s', heq', -⟩ := finalAssembly_range_accepted st.allResults 0 m
        cfg.n (Sample.init cfg.sampleOptions) 0 h1 (hall hacc) hn hm
      have h2 := heq'.symm.trans heq
      simp only [Option.some_inj, Prod.mk.injEq] at h2
      omega

/-- C3 (amended) witness: one always-accepting worker result gives the
multicore backend `nr_evaluations_ = 1 = n`; the always-accepting remote
round at `alwaysAcceptCfg` gives `nr_evaluations_ = 0 = n - 1`. -/
theorem claim_C3_amended_witness :
    1 ≤ (multicoreAssemble false [(workerSample, 1)]).2 ∧
    (multicoreAssemble false [(workerSample, 1)]).2 = 1 ∧
    alwaysAcceptCfg.n - 1 ≤ 0 ∧
    (0 : Nat) = alwaysAcceptCfg.n - 1 := by
  have hmem : ∀ r ∈ [(workerSample, 1)], IsWorkerResult false r := by
    intro r hr
    rw [List.mem_singleton] at hr
    subst hr
    exact ⟨fun _ => ⟨true, ()⟩, 1, rfl⟩
  have hmem2 : ∀ r ∈ [(workerSample, 1)],
      IsAlwaysAcceptWorkerResult false r := by
    intro r hr
    rw [List.mem_singleton] at hr
    subst hr
    exact ⟨fun _ => ⟨true, ()⟩, 1, fun i => rfl, le_refl 1, rfl⟩
  refine ⟨claim_C3_amended.1 Unit false 1 [(workerSample, 1)] rfl hmem,
    claim_C3_amended.2.1 Unit false 1 [(workerSample, 1)] rfl hmem2,
    claim_C3_amended.2.2.1 Unit Unit alwaysAcceptCfg (fun _ _ => true) 3
      ⟨false, [⟨true, ()⟩]⟩ 0 (by decide) (by decide),
    (claim_C3_amended.2.2.2 Unit Unit alwaysAcceptCfg (fun _ _ => true) 3
      ⟨false, [⟨true, ()⟩]⟩ 0 (by decide) (fun t => rfl) (by decide)).symm⟩

/-- C4: `append` adds `p` to the accepted particles iff `p.accepted`;
appending a rejected particle never changes the accepted-particle list,
and changes `all_sum_stats` iff rejected-recording is enabled. -/
theorem claim_C4 (α : Type) (s : Sample α) (p : Particle α) :
    (s.append p).acceptedParticles =
      s.acceptedParticles ++ (if p.accepted then [p] else []) ∧
    (p.accepted = false →
      (s.append p).acceptedParticles = s.acceptedParticles) ∧
    (p.accepted = false →
      ((s.append p).allSumStats ≠ s.allSumStats ↔
        s.recordAllSumStats = true)) := by
  refine ⟨?_, ?_, ?_⟩
  · unfold Sample.append Sample.acceptedParticles
    by_cases hp : p.accepted <;> by_cases hr : s.recordAllSumStats <;>
      simp [hp, hr, List.filter_append]
  · intro hp
    unfold Sample.append Sample.acceptedParticles
    by_cases hr : s.recordAllSumStats <;>
      simp [hp, hr, List.filter_append]
  · intro hp
    unfold Sample.append Sample.allSumStats
    by_cases hr : s.recordAllSumStats
    · simp only [hp, hr, Bool.false_or, if_true]
      constructor
      · intro _
        trivial
      · intro _ hcontra
        have := congrArg List.length hcontra
        simp at this
    · simp [hp, hr]

/-- C4 witness: appending the rejected particle `particleW` to the
recording sample `sampleW` leaves the accepted particles unchanged and
changes `all_sum_stats`. -/
theorem claim_C4_witness :
    ((sampleW.append particleW).acceptedParticles =
      sampleW.acceptedParticles ++
        (if particleW.accepted then [particleW] else [])) ∧
    (sampleW.append particleW).acceptedParticles =
      sampleW.acceptedParticles ∧
    ((sampleW.append particleW).allSumStats ≠ sampleW.allSumStats ↔
      sampleW.recordAllSumStats = true) :=
  ⟨(claim_C4 Nat sampleW particleW).1,
   (claim_C4 Nat sampleW particleW).2.1 rfl,
   (claim_C4 Nat sampleW particleW).2.2 rfl⟩

/-- C5: once `num_accepted_sequential` has reached `n`, the loop exits at
the acceptance check — before admission control, with `next_job_id`
unchanged — and `admitStep` never submits in any iteration with
`num_accepted_total ≥ n`. -/
theorem claim_C5 :
    (∀ (θ α : Type) (cfg : EpsConfig θ α) (sched : Nat → Nat → Bool)
      (fuel t : Nat) (st : SchedState α),
      cfg.n ≤ (consumeStep (drainStep cfg (sched t) st)).numAcceptedSequential →
      runLoop cfg sched (fuel + 1) t st =
        some (consumeStep (drainStep cfg (sched t) st)) ∧
      (consumeStep (drainStep cfg (sched t) st)).nextJobId = st.nextJobId) ∧
    (∀ (θ α : Type) (cfg : EpsConfig θ α) (st : SchedState α),
      cfg.n ≤ st.numAcceptedTotal → admitStep cfg st = st) := by
  constructor
  · intro θ α cfg sched fuel t st h
    exact ⟨by simp only [runLoop, if_pos h], rfl⟩
  · intro θ α cfg st h
    unfold admitStep
    rw [if_neg]
    rintro ⟨-, -, hc⟩
    omega

/-- C5 witness: from `admitFullState` (buffered accepted result for job 0,
`num_accepted_total = 1 = n`), the loop exits immediately with no new
submission, and `admitStep` leaves the state untouched. -/
theorem claim_C5_witness :
    (runLoop alwaysAcceptCfg (fun _ _ => false) 1 0 admitFullState =
      some (consumeStep
        (drainStep alwaysAcceptCfg ((fun _ _ => false) 0) admitFullState)) ∧
     (consumeStep
        (drainStep alwaysAcceptCfg ((fun _ _ => false) 0)
          admitFullState)).nextJobId = admitFullState.nextJobId) ∧
    admitStep alwaysAcceptCfg admitFullState = admitFullState :=
  ⟨claim_C5.1 Unit Unit alwaysAcceptCfg (fun _ _ => false) 0 0 admitFullState
    (by decide),
   claim_C5.2 Unit Unit alwaysAcceptCfg admitFullState (by decide)⟩

theorem foldl_push (x : γ) :
    ∀ (k : Nat) (acc : List γ),
      (List.range k).foldl (fun q _ => q ++ [x]) acc =
        acc ++ List.replicate k x := by
  intro k
  induction k with
  | zero => simp
  | succ k ih =>
    intro acc
    rw [List.range_succ, List.foldl_append, ih]
    simp [List.replicate_succ']

theorem feed_eq_replicate (nJobs nProc : Nat) :
    feed nJobs nProc =
      List.replicate nJobs (some 1) ++ List.replicate nProc none := by
  unfold feed
  rw [foldl_push, foldl_push]
  simp

/-- C6: in the multicore backend with target `n` and configured worker
count `w`, exactly `min(n, w)` worker processes are spawned; the feeder
puts `n` work tokens followed by `min(n, w)` termination tokens; the
coordinator performs exactly `n` receives (for `n = 5`, `w = 3`: 3
workers, 5 work tokens, 3 termination tokens, 5 receives). -/
theorem claim_C6 :
    (∀ n w : Nat,
      (multicorePlan n w).workerProcs.length = min n w ∧
      (multicorePlan n w).feedQueue =
        List.replicate n (some 1) ++ List.replicate (min n w) none ∧
      (multicorePlan n w).collectedReceives.length = n) ∧
    (multicorePlan 5 3).workerProcs.length = 3 ∧
    (multicorePlan 5 3).feedQueue =
      [some 1, some 1, some 1, some 1, some 1, none, none, none] ∧
    (multicorePlan 5 3).collectedReceives.length = 5 := by
  refine ⟨?_, by decide, by decide, by decide⟩
  intro n w
  refine ⟨by simp [multicorePlan], ?_, by simp [multicorePlan]⟩
  simp only [multicorePlan]
  exact feed_eq_replicate n (min n w)

/-- C7: `s1 + s2` concatenates the particle lists (left first), hence the
two orders of addition agree as multisets and `n_accepted` is additive,
while the particle order of `s1 + s2` and `s2 + s1` can differ. -/
theorem claim_C7 :
    (∀ (α : Type) (s1 s2 : Sample α),
      s1.recordAllSumStats = s2.recordAllSumStats →
      (s1 + s2).particles = s1.particles ++ s2.particles ∧
      ((s1 + s2).particles).Perm ((s2 + s1).particles) ∧
      (s1 + s2).nAccepted = s1.nAccepted + s2.nAccepted) ∧
    (∃ t1 t2 : Sample Nat, t1.recordAllSumStats = t2.recordAllSumStats ∧
      (t1 + t2).particles ≠ (t2 + t1).particles) := by
  constructor
  · intro α s1 s2 _
    exact ⟨rfl, List.perm_append_comm, Sample.nAccepted_add s1 s2⟩
  · exact ⟨⟨false, [⟨true, 1⟩]⟩, ⟨false, [⟨true, 2⟩]⟩, rfl, by decide⟩

/-- C7 witness: two concrete same-option Samples. -/
theorem claim_C7_witness :
    (sampleA + sampleB).particles = sampleA.particles ++ sampleB.particles ∧
    ((sampleA + sampleB).particles).Perm ((sampleB + sampleA).particles) ∧
    (sampleA + sampleB).nAccepted = sampleA.nAccepted + sampleB.nAccepted :=
  claim_C7.1 Nat sampleA sampleB rfl

/-- C8 counterexample: the claim that one drain pass removes every
finished batch fails — with batches 0 and 1 both finished, the pass
removes only batch 0 and leaves the finished batch 1 in the running
list. -/
theorem claim_C8_counterexample :
    ¬ ∀ (done : Nat → Bool) (jobs : List Nat),
        ∀ j ∈ (drainPass done jobs).1, done j = false := by
  intro h
  have := h (fun _ => true) [0, 1] 1 (by decide)
  simp at this

/-- C8 (amended): each iteration's drain pass removes only finished
batches — at least one whenever any is finished, but the handle
immediately following each removed one is skipped until a later
iteration — without losing or duplicating handles, buffering every
drained result keyed by job id and incrementing `num_accepted_total`
once per accepted drained result regardless of completion order. -/
theorem claim_C8_amended (θ α : Type) (cfg : EpsConfig θ α)
    (done : Nat → Bool) (st : SchedState α) :
    (∀ j ∈ (drainPass done st.runningJobs).2, done j = true) ∧
    ((∃ j ∈ st.runningJobs, done j = true) →
      (drainPass done st.runningJobs).2 ≠ []) ∧
    ((drainPass done st.runningJobs).1 ++
      (drainPass done st.runningJobs).2).Perm st.runningJobs ∧
    (drainStep cfg done st).numAcceptedTotal = st.numAcceptedTotal +
      (((drainPass done st.runningJobs).2.map
        (jobTriples cfg)).flatten.filter (fun t => t.accepted)).length ∧
    (∀ t ∈ ((drainPass done st.runningJobs).2.map (jobTriples cfg)).flatten,
      t ∈ (drainStep cfg done st).unprocessedResults) ∧
    (drainStep cfg done st).runningJobs = (drainPass done st.runningJobs).1 :=
  ⟨drainPass_drained_done done _, drainPass_ne_nil done _,
   drainPass_perm done _, rfl,
   fun t ht =>
     (mem_foldl_insertSortedBy RTriple.jobId _ st.unprocessedResults t).mpr
       (Or.inr ht),
   rfl⟩

/-- C8 (amended) witness: from `drainDemoState` (running batches 0 and 1,
both finished) the pass drains a nonempty set of handles and loses
none. -/
theorem claim_C8_amended_witness :
    (drainPass (fun _ => true) drainDemoState.runningJobs).2 ≠ [] ∧
    ((drainPass (fun _ => true) drainDemoState.runningJobs).1 ++
      (drainPass (fun _ => true) drainDemoState.runningJobs).2).Perm
      drainDemoState.runningJobs :=
  ⟨(claim_C8_amended Unit Unit alwaysAcceptCfg (fun _ => true)
      drainDemoState).2.1 ⟨0, by decide, rfl⟩,
   (claim_C8_amended Unit Unit alwaysAcceptCfg (fun _ => true)
      drainDemoState).2.2.1⟩

/-- C9: the pickling transport path (unpickling a pre-serialized
evaluation function) and the closure-capturing path produce identical
result batches on the same parameter and job-id batches. -/
theorem claim_C9 (θ α : Type) (batchsize : Nat)
    (simulEvalOne : θ → Particle α) (param : Nat → θ) (jobId : Nat → Nat) :
    fullSubmitFunctionPickle batchsize (pickleDumps simulEvalOne) param jobId =
      fullSubmitFunctionClosure batchsize simulEvalOne param jobId := rfl

/-- C10: `s1 + s2` is a fresh Sample determined by its operands alone —
its particles are the concatenation of the operands' lists (which are not
modified) and its `record_all_sum_stats` flag is taken from the left
operand, regardless of the right operand's flag. -/
theorem claim_C10 (α : Type) (s1 s2 : Sample α) :
    (s1 + s2).recordAllSumStats = s1.recordAllSumStats ∧
    (s1 + s2).particles = s1.particles ++ s2.particles ∧
    s1 + s2 = { recordAllSumStats := s1.recordAllSumStats,
                particles := s1.particles ++ s2.particles } :=
  ⟨rfl, rfl, rfl⟩

end PyABC
